import Mathlib

/-!
Verification development for the npm-dependency snapshot programs.

The repository contains several near-duplicate Go programs that
  1. discover the (transitive) dependencies of a published npm package
     (`getAllDependencies` in `src/unnamed/part_000`),
  2. resolve each declared version range to the highest published version
     matching it (`getLatestVersionForRange` in `src/unnamed/part_000`,
     `src/get_dependencies/main.go` and `src/unnamed/part_002`), and
  3. assemble the result into a snapshot record
     (`saveLatestVersionsToFile` in the same files).

This file gives a shallow embedding of those functions.  The external
collaborators are made explicit parameters:

  * the npm registry (`npm view <key> dependencies --json` and
    `npm view <name> versions --json`) becomes a finite association list
    (`Registry`) respectively a fetch function `String → Option (List String)`;
  * file/console output is dropped; the functions return the value that the
    Go code would serialize, or the error that aborts it.

The Go code calls the external `github.com/Masterminds/semver/v3` library
for `NewVersion`, `NewConstraint`, `Check` and `Compare`.  That library is
not part of this repository, so the `Semver` namespace models its documented
behaviour for the fragment exercised here: versions `major.minor.patch`
with optional pre-release and build-metadata segments, and constraints that
are a space/comma separated conjunction of comparator atoms
(`=`, `>`, `>=`, `<`, `<=`, `^`, `~`, or a bare version) whose version part
is written out in full.  Wildcard, partial-version and `||` constraint
forms are outside the modelled fragment.
-/

namespace Semver

/-- Parsed semantic version: the model of `semver.Version` from the
Masterminds library (`major.minor.patch`, pre-release identifiers after
`-`, build metadata after `+`). -/
structure SemVer where
  major : Nat
  minor : Nat
  patch : Nat
  pre : List String
  meta : List String
deriving DecidableEq

/-- Three-way comparison of naturals as an integer sign, mirroring the
integer results of Go comparison helpers. -/
def cmpNat (a b : Nat) : Int :=
  if a < b then -1 else if b < a then 1 else 0

/-- Accumulate the numeric value of a digit list. -/
def digitsVal : List Char → Nat → Nat
  | [], acc => acc
  | c :: t, acc => digitsVal t (acc * 10 + (c.toNat - 48))

/-- Parse a non-empty all-digit character list as a natural number. -/
def parseNum (cs : List Char) : Option Nat :=
  if cs.isEmpty then none
  else if cs.all Char.isDigit then some (digitsVal cs 0) else none

/-- Split a character list on every occurrence of a separator character. -/
def splitChars (sep : Char) : List Char → List (List Char)
  | [] => [[]]
  | c :: t =>
    match splitChars sep t with
    | [] => [[]]
    | h :: r => if c = sep then [] :: h :: r else (c :: h) :: r

/-- Split a character list at the first occurrence of a separator; the
second component is `none` when the separator does not occur. -/
def breakAt (sep : Char) : List Char → List Char × Option (List Char)
  | [] => ([], none)
  | c :: t =>
    if c = sep then ([], some t)
    else
      let p := breakAt sep t
      (c :: p.1, p.2)

/-- Characters allowed in pre-release and metadata identifiers
(`[0-9A-Za-z-]`, as in the Masterminds version regular expression). -/
def isIdentChar (c : Char) : Bool :=
  c.isDigit || c.isAlpha || c == '-'

/-- Parse a dot-separated list of non-empty identifier segments. -/
def parseDotted (cs : List Char) : Option (List String) :=
  let parts := splitChars '.' cs
  if parts.all (fun p => !p.isEmpty && p.all isIdentChar) then
    some (parts.map (fun p => String.mk p))
  else none

/-- Parse the numeric core of a version: one to three dot-separated numeric
segments, missing segments defaulting to zero (the lenient
`semver.NewVersion` behaviour). -/
def parseCore (cs : List Char) : Option (Nat × Nat × Nat) :=
  match (splitChars '.' cs).map parseNum with
  | [some a] => some (a, 0, 0)
  | [some a, some b] => some (a, b, 0)
  | [some a, some b, some c] => some (a, b, c)
  | _ => none

/-- Parse the numeric core of a version requiring all three segments, as
used for the version part of a constraint atom in the modelled fragment. -/
def parseCoreFull (cs : List Char) : Option (Nat × Nat × Nat) :=
  match (splitChars '.' cs).map parseNum with
  | [some a, some b, some c] => some (a, b, c)
  | _ => none

/-- Model of `semver.NewVersion`: optional leading `v`, numeric core,
optional `-pre` and `+meta` parts; `none` models a parse error. -/
def parseVersion (s : String) : Option SemVer :=
  let cs :=
    match s.data with
    | 'v' :: t => t
    | cs => cs
  let bm := breakAt '+' cs
  let metaOk : Option (List String) :=
    match bm.2 with
    | none => some []
    | some m => parseDotted m
  match metaOk with
  | none => none
  | some md =>
    let cp := breakAt '-' bm.1
    let preOk : Option (List String) :=
      match cp.2 with
      | none => some []
      | some p => parseDotted p
    match preOk with
    | none => none
    | some pr =>
      match parseCore cp.1 with
      | none => none
      | some (a, b, c) => some ⟨a, b, c, pr, md⟩

/-- Like `parseVersion` but requiring the full `major.minor.patch` core,
for constraint atoms. -/
def parseVersionFull (s : String) : Option SemVer :=
  let cs :=
    match s.data with
    | 'v' :: t => t
    | cs => cs
  let bm := breakAt '+' cs
  let metaOk : Option (List String) :=
    match bm.2 with
    | none => some []
    | some m => parseDotted m
  match metaOk with
  | none => none
  | some md =>
    let cp := breakAt '-' bm.1
    let preOk : Option (List String) :=
      match cp.2 with
      | none => some []
      | some p => parseDotted p
    match preOk with
    | none => none
    | some pr =>
      match parseCoreFull cp.1 with
      | none => none
      | some (a, b, c) => some ⟨a, b, c, pr, md⟩

/-- Character-wise lexicographic comparison returning an integer sign. -/
def cmpChars : List Char → List Char → Int
  | [], [] => 0
  | [], _ :: _ => -1
  | _ :: _, [] => 1
  | a :: as, b :: bs => if a < b then -1 else if b < a then 1 else cmpChars as bs

/-- Lexicographic string comparison returning an integer sign; this is the
model of Go `strings.Compare` (byte-wise order agrees with character order
on the ASCII data handled here). -/
def cmpStr (x y : String) : Int := cmpChars x.data y.data

/-- Compare two pre-release identifiers: numeric identifiers compare
numerically and are lower than alphanumeric ones, alphanumeric ones
compare lexicographically. -/
def cmpPreId (x y : String) : Int :=
  match parseNum x.data, parseNum y.data with
  | some m, some n => cmpNat m n
  | some _, none => -1
  | none, some _ => 1
  | none, none => cmpStr x y

/-- Compare two non-empty pre-release identifier lists field by field; a
list that is a proper prefix of the other is lower. -/
def cmpPreList : List String → List String → Int
  | [], [] => 0
  | [], _ :: _ => -1
  | _ :: _, [] => 1
  | x :: xs, y :: ys =>
    let c := cmpPreId x y
    if c = 0 then cmpPreList xs ys else c

/-- Compare pre-release components: a release (no pre-release) is higher
than any pre-release of the same core version. -/
def cmpPre (a b : List String) : Int :=
  match a, b with
  | [], [] => 0
  | [], _ :: _ => 1
  | _ :: _, [] => -1
  | _, _ => cmpPreList a b

/-- Model of `semver.Version.Compare`: major, minor, patch numerically,
then pre-release precedence; build metadata is ignored. -/
def compareSemVer (a b : SemVer) : Int :=
  let c := cmpNat a.major b.major
  if c ≠ 0 then c else
  let c := cmpNat a.minor b.minor
  if c ≠ 0 then c else
  let c := cmpNat a.patch b.patch
  if c ≠ 0 then c else cmpPre a.pre b.pre

/-- Comparator operators of the modelled constraint fragment. -/
inductive COp where
  | eqOp | gtOp | geOp | ltOp | leOp | caretOp | tildeOp
deriving DecidableEq

/-- One comparator atom of a constraint: an operator and a version. -/
structure CAtom where
  op : COp
  ver : SemVer
deriving DecidableEq

/-- Parse a single comparator atom. -/
def parseAtom (s : String) : Option CAtom :=
  let p : COp × List Char :=
    match s.data with
    | '>' :: '=' :: t => (.geOp, t)
    | '=' :: '>' :: t => (.geOp, t)
    | '<' :: '=' :: t => (.leOp, t)
    | '=' :: '<' :: t => (.leOp, t)
    | '>' :: t => (.gtOp, t)
    | '<' :: t => (.ltOp, t)
    | '^' :: t => (.caretOp, t)
    | '~' :: t => (.tildeOp, t)
    | '=' :: t => (.eqOp, t)
    | t => (.eqOp, t)
  match parseVersionFull (String.mk p.2) with
  | none => none
  | some v => some ⟨p.1, v⟩

/-- Split a constraint expression into atom tokens on spaces and commas. -/
def tokens (s : String) : List (List Char) :=
  (((splitChars ' ' s.data).map (splitChars ',')).flatten).filter (fun t => !t.isEmpty)

/-- Model of `semver.NewConstraint` on the modelled fragment: a non-empty
conjunction of comparator atoms; `none` models a parse error. -/
def parseRange (s : String) : Option (List CAtom) :=
  match tokens s with
  | [] => none
  | ts => ts.mapM (fun t => parseAtom (String.mk t))

/-- Exclusive upper bound implied by a caret constraint. -/
def caretUpper (v : SemVer) : SemVer :=
  if v.major > 0 then ⟨v.major + 1, 0, 0, [], []⟩
  else if v.minor > 0 then ⟨0, v.minor + 1, 0, [], []⟩
  else ⟨0, 0, v.patch + 1, [], []⟩

/-- Exclusive upper bound implied by a tilde constraint. -/
def tildeUpper (v : SemVer) : SemVer :=
  ⟨v.major, v.minor + 1, 0, [], []⟩

/-- Check one comparator atom against a version.  As in the Masterminds
library, a version carrying a pre-release is rejected unless the atom's
own version carries a pre-release (the range must opt into pre-releases). -/
def checkAtom (a : CAtom) (v : SemVer) : Bool :=
  if v.pre ≠ [] ∧ a.ver.pre = [] then false
  else
    match a.op with
    | .eqOp => decide (compareSemVer v a.ver = 0)
    | .gtOp => decide (compareSemVer v a.ver > 0)
    | .geOp => decide (compareSemVer v a.ver ≥ 0)
    | .ltOp => decide (compareSemVer v a.ver < 0)
    | .leOp => decide (compareSemVer v a.ver ≤ 0)
    | .caretOp =>
      decide (compareSemVer v a.ver ≥ 0 ∧ compareSemVer v (caretUpper a.ver) < 0)
    | .tildeOp =>
      decide (compareSemVer v a.ver ≥ 0 ∧ compareSemVer v (tildeUpper a.ver) < 0)

/-- Model of `Constraints.Check`: every atom of the conjunction holds. -/
def checkConstraint (c : List CAtom) (v : SemVer) : Bool :=
  c.all (fun a => checkAtom a v)

end Semver

/-- Errors of the range-resolution step, mirroring the error values that
`getLatestVersionForRange` can return in the Go code: a failed registry
fetch (the `npm view ... versions` command or its JSON decoding), or the
`no version found for <name> in range <range>` error. -/
inductive ResolveErr where
  | oracleFailed : ResolveErr
  | noMatch : String → String → ResolveErr
deriving DecidableEq

/-- Error of `saveLatestVersionsToFile`: the first per-dependency failure,
wrapped with the dependency name as in
`error fetching latest version for <dep>: <err>`. -/
inductive SaveErr where
  | fetchFailed : String → ResolveErr → SaveErr
deriving DecidableEq

namespace Part000

/-- Embeds `isVersionInRange` from `src/unnamed/part_000` (lines 174-186):
constraint parse failure or version parse failure yield `false`, otherwise
the constraint is checked. -/
def isVersionInRange (version versionRange : String) : Bool :=
  match Semver.parseRange versionRange with
  | none => false
  | some r =>
    match Semver.parseVersion version with
    | none => false
    | some v => Semver.checkConstraint r v

/-- Embeds `compareVersions` from `src/unnamed/part_000` (lines 188-198):
semantic-version comparison, with `0` on any parse failure. -/
def compareVersions (v1 v2 : String) : Int :=
  match Semver.parseVersion v1 with
  | none => 0
  | some a =>
    match Semver.parseVersion v2 with
    | none => 0
    | some b => Semver.compareSemVer a b

/-- One iteration of the selection loop of `getLatestVersionForRange`
(`src/unnamed/part_000` lines 159-165): adopt `version` when it satisfies
the range and is the first match or higher than the current candidate. -/
def pickLatest (versionRange latest version : String) : String :=
  if isVersionInRange version versionRange then
    if latest = "" ∨ compareVersions version latest > 0 then version else latest
  else latest

/-- The selection loop of `getLatestVersionForRange` from
`src/unnamed/part_000` (lines 153-171), applied to an already fetched
version list: keep the highest version satisfying the range, failing with
the `no version found` error when none does. -/
def getLatestVersionForRangeFrom (versions : List String)
    (packageName versionRange : String) : Except ResolveErr String :=
  let latestVersion := versions.foldl (pickLatest versionRange) ""
  if latestVersion = "" then .error (.noMatch packageName versionRange)
  else .ok latestVersion

/-- Embeds `getLatestVersionForRange` from `src/unnamed/part_000`
(lines 146-172); the `npm view <name> versions --json` call together with
its JSON decoding is the explicit `fetch` collaborator, `none` standing
for its failure. -/
def getLatestVersionForRange (fetch : String → Option (List String))
    (packageName versionRange : String) : Except ResolveErr String :=
  match fetch packageName with
  | none => .error .oracleFailed
  | some versions => getLatestVersionForRangeFrom versions packageName versionRange

/-- Embeds the resolution loop of `saveLatestVersionsToFile` from
`src/unnamed/part_000` (lines 113-144): resolve every dependency entry,
aborting with the first wrapped failure; on success the returned list is
the `latestVersions` map the Go code then serializes.  File output is
external and omitted (the Go code only creates the file after the whole
loop has succeeded). -/
def saveLatestVersionsToFile (fetch : String → Option (List String)) :
    List (String × String) → Except SaveErr (List (String × String))
  | [] => .ok []
  | (dep, versionRange) :: rest =>
    match getLatestVersionForRange fetch dep versionRange with
    | .error e => .error (.fetchFailed dep e)
    | .ok latestVersion =>
      match saveLatestVersionsToFile fetch rest with
      | .error e => .error e
      | .ok m => .ok ((dep, latestVersion) :: m)

end Part000

namespace GetDeps

/-- Embeds `isVersionInRange` from `src/get_dependencies/main.go`
(lines 198-213); identical to the `part_000` version. -/
def isVersionInRange (version versionRange : String) : Bool :=
  match Semver.parseRange versionRange with
  | none => false
  | some r =>
    match Semver.parseVersion version with
    | none => false
    | some v => Semver.checkConstraint r v

/-- Embeds `compareVersions` from `src/get_dependencies/main.go`
(lines 216-219): plain `strings.Compare`, i.e. lexicographic string
comparison, not semantic-version comparison. -/
def compareVersions (v1 v2 : String) : Int :=
  Semver.cmpStr v1 v2

/-- One iteration of the selection loop of `getLatestVersionForRange`
(`src/get_dependencies/main.go` lines 183-189), with the lexicographic
`compareVersions` above. -/
def pickLatest (versionRange latest version : String) : String :=
  if isVersionInRange version versionRange then
    if latest = "" ∨ compareVersions version latest > 0 then version else latest
  else latest

/-- The selection loop of `getLatestVersionForRange` from
`src/get_dependencies/main.go` (lines 181-195), applied to an already
fetched version list; same loop as in `part_000` but with the
lexicographic `compareVersions` above. -/
def getLatestVersionForRangeFrom (versions : List String)
    (packageName versionRange : String) : Except ResolveErr String :=
  let latestVersion := versions.foldl (pickLatest versionRange) ""
  if latestVersion = "" then .error (.noMatch packageName versionRange)
  else .ok latestVersion

end GetDeps

namespace Part002

/-- Whether the first list is a leading segment of the second. -/
def charsStartWith : List Char → List Char → Bool
  | [], _ => true
  | _ :: _, [] => false
  | a :: as, b :: bs => a == b && charsStartWith as bs

/-- Whether `needle` occurs contiguously inside `hay`; the model of Go
`strings.Contains`. -/
def charsContain (hay needle : List Char) : Bool :=
  charsStartWith needle hay ||
    match hay with
    | [] => false
    | _ :: t => charsContain t needle

/-- Model of Go `strings.Contains s sub`. -/
def strContains (s sub : String) : Bool :=
  charsContain s.data sub.data

/-- Embeds `isVersionInRange` from `src/unnamed/part_002` (lines 173-177):
a literal substring check of the version inside the range expression. -/
def isVersionInRange (version versionRange : String) : Bool :=
  strContains versionRange version

/-- Embeds `compareVersions` from `src/unnamed/part_002` (lines 180-183):
plain `strings.Compare`. -/
def compareVersions (v1 v2 : String) : Int :=
  Semver.cmpStr v1 v2

end Part002

/-- Result of one `npm view <key> dependencies --json` call: the command
can fail, succeed with empty or `null` output (no dependencies), or
succeed with a dependency map (name to declared range, in JSON order). -/
inductive OracleResp where
  | err : OracleResp
  | empty : OracleResp
  | deps : List (String × String) → OracleResp
deriving DecidableEq

/-- The npm registry as seen through `npm view ... dependencies`: a finite
association from query keys (`name@version` for the root, bare names for
dependencies) to responses.  A key with no entry behaves like a failing
command. -/
abbrev Registry := List (String × OracleResp)

/-- Boolean membership in a string list, modelling a Go
`map[string]bool` visited-set lookup. -/
def memStr : List String → String → Bool
  | [], _ => false
  | a :: t, k => if a = k then true else memStr t k

/-- Association-list update modelling a Go map assignment
`m[k] = v` (overwrites an existing key, otherwise appends). -/
def setEntry : List (String × String) → String → String → List (String × String)
  | [], k, v => [(k, v)]
  | (a, b) :: t, k, v => if a = k then (k, v) :: t else (a, b) :: setEntry t k v

/-- Association-list lookup modelling a Go map read. -/
def lookupEntry : List (String × String) → String → Option String
  | [], _ => none
  | (a, v) :: t, k => if a = k then some v else lookupEntry t k

/-- Look up the oracle response for a query key. -/
def lookupResp : Registry → String → OracleResp
  | [], _ => .err
  | (n, resp) :: t, k => if n = k then resp else lookupResp t k

/-- The dependency pairs delivered by a successful response: the Go code
replaces empty or `null` output by `{}` before unmarshalling, so an
`empty` response yields the empty pair list. -/
def respDeps : OracleResp → List (String × String)
  | .err => []
  | .empty => []
  | .deps ds => ds

namespace Part000

/-- The inner loop of `getAllDependencies` over one response
(`src/unnamed/part_000` lines 101-106): for every `(dep, versionRange)`
pair write `dependencies[dep] = versionRange` unconditionally and append
`dep` to the work queue when it is not in the visited set. -/
def processDeps (seen : List String) :
    List (String × String) → List (String × String) → List String →
    List (String × String) × List String
  | [], closure, queue => (closure, queue)
  | (dep, versionRange) :: rest, closure, queue =>
    processDeps seen rest (setEntry closure dep versionRange)
      (if memStr seen dep then queue else queue ++ [dep])

/-- Result of the traversal: the closure map and the list of keys that
were actually queried (in query order), an oracle failure aborting the
run, or exhaustion of the fuel bound (proved unreachable below). -/
inductive TravResult where
  | ok : List (String × String) → List String → TravResult
  | oracleErr : String → TravResult
  | outOfFuel : TravResult
deriving DecidableEq

/-- The work loop of `getAllDependencies` (`src/unnamed/part_000` lines
74-107): pop the front key, skip it when already visited, otherwise mark
it visited, query the oracle, and fold its dependency pairs into the
closure map and the queue.  The loop in Go runs until the queue empties;
here a fuel parameter makes the recursion structural, and
`getAllDependencies` below supplies fuel proved sufficient for every
registry. -/
def bfs (o : Registry) :
    Nat → List String → List String → List (String × String) → List String → TravResult
  | 0, _, _, _, _ => .outOfFuel
  | _ + 1, [], _, closure, queried => .ok closure queried
  | fuel + 1, k :: rest, seen, closure, queried =>
    if memStr seen k then
      bfs o fuel rest seen closure queried
    else
      match lookupResp o k with
      | .err => .oracleErr k
      | resp =>
        let pq := processDeps (k :: seen) (respDeps resp) closure rest
        bfs o fuel pq.2 (k :: seen) pq.1 (queried ++ [k])

/-- All dependency names occurring in any response of the registry; every
key the traversal ever enqueues beyond the root key is among them. -/
def allDepNames : Registry → List String
  | [] => []
  | (_, resp) :: t => (respDeps resp).map Prod.fst ++ allDepNames t

/-- Fuel that the termination proof shows is never exhausted. -/
def initialFuel (o : Registry) : Nat :=
  2 + (1 + (allDepNames o).length) * (1 + (allDepNames o).length)

/-- The root is queued as a `name@version` key
(`src/unnamed/part_000` line 70). -/
def rootKey (packageName packageVersion : String) : String :=
  packageName ++ "@" ++ packageVersion

/-- Embeds `getAllDependencies` from `src/unnamed/part_000` (lines
68-110): breadth-first discovery of all transitive dependencies starting
from the root `name@version` key, with the visited set preventing
re-queries of a key. -/
def getAllDependencies (o : Registry) (packageName packageVersion : String) : TravResult :=
  bfs o (initialFuel o) [rootKey packageName packageVersion] [] [] []

/-- The closure map of a completed traversal (empty on failure). -/
def closureOf : TravResult → List (String × String)
  | .ok closure _ => closure
  | _ => []

/-- The queried keys of a completed traversal (empty on failure). -/
def queriedOf : TravResult → List String
  | .ok _ queried => queried
  | _ => []

/-- The package name a query key refers to: the part before the `@`
version suffix, the whole key when there is none. -/
def keyName (k : String) : String :=
  String.mk (k.data.takeWhile (fun c => !(c == '@')))

/-- All keys the traversal can ever put on its queue: the root key and
every dependency name of the registry. -/
def keyUniverse (o : Registry) (r : String) : List String :=
  r :: allDepNames o

/-- Number of universe keys not yet in the visited set. -/
def unseenCount (univ seen : List String) : Nat :=
  (univ.filter (fun n => !(memStr seen n))).length

end Part000

namespace Part000

theorem memStr_eq_true_iff (l : List String) (k : String) : memStr l k = true ↔ k ∈ l := by
  induction l with
  | nil => simp [memStr]
  | cons a t ih =>
    by_cases h : a = k
    · subst h
      simp [memStr]
    · rw [List.mem_cons]
      simp only [memStr, if_neg h, ih]
      constructor
      · exact fun hk => Or.inr hk
      · rintro (rfl | hk)
        · exact absurd rfl h
        · exact hk

theorem memStr_cons_of {seen : List String} {n : String} (k : String)
    (h : memStr seen n = true) : memStr (k :: seen) n = true := by
  simp only [memStr]
  split <;> simp [h]

theorem memStr_cons_self (seen : List String) (k : String) :
    memStr (k :: seen) k = true := by
  simp [memStr]

theorem memStr_cons_ne {k n : String} (seen : List String) (h : k ≠ n) :
    memStr (k :: seen) n = memStr seen n := by
  simp [memStr, if_neg h]

theorem processDeps_queue_length (seen : List String) :
    ∀ (ds closure : List (String × String)) (queue : List String),
      ((processDeps seen ds closure queue).2).length ≤ queue.length + ds.length := by
  intro ds
  induction ds with
  | nil =>
    intro closure queue
    simp [processDeps]
  | cons p rest ih =>
    intro closure queue
    obtain ⟨d, rg⟩ := p
    simp only [processDeps]
    by_cases h : memStr seen d = true
    · rw [if_pos h]
      have h2 := ih (setEntry closure d rg) queue
      simp only [List.length_cons]
      omega
    · rw [if_neg h]
      have := ih (setEntry closure d rg) (queue ++ [d])
      simp only [List.length_append, List.length_singleton] at this
      simp only [List.length_cons]
      omega

theorem processDeps_queue_mem (seen : List String) :
    ∀ (ds closure : List (String × String)) (queue : List String) (x : String),
      x ∈ (processDeps seen ds closure queue).2 →
      x ∈ queue ∨ x ∈ ds.map Prod.fst := by
  intro ds
  induction ds with
  | nil =>
    intro closure queue x hx
    simp only [processDeps] at hx
    exact Or.inl hx
  | cons p rest ih =>
    intro closure queue x hx
    obtain ⟨d, rg⟩ := p
    simp only [processDeps] at hx
    rcases ih (setEntry closure d rg) _ x hx with h | h
    · by_cases hm : memStr seen d = true
      · rw [if_pos hm] at h
        exact Or.inl h
      · rw [if_neg hm] at h
        rcases List.mem_append.mp h with h2 | h2
        · exact Or.inl h2
        · rw [List.mem_singleton] at h2
          subst h2
          exact Or.inr (by simp)
    · exact Or.inr (by simpa using Or.inr h)

theorem respDeps_lookup_length (o : Registry) (k : String) :
    (respDeps (lookupResp o k)).length ≤ (allDepNames o).length := by
  induction o with
  | nil => simp [lookupResp, respDeps]
  | cons e t ih =>
    obtain ⟨n, resp⟩ := e
    simp only [lookupResp, allDepNames]
    by_cases h : n = k
    · rw [if_pos h]
      simp only [List.length_append, List.length_map]
      omega
    · rw [if_neg h]
      simp only [List.length_append, List.length_map]
      omega

theorem respDeps_lookup_mem (o : Registry) (k x : String)
    (hx : x ∈ (respDeps (lookupResp o k)).map Prod.fst) :
    x ∈ allDepNames o := by
  induction o with
  | nil => simp [lookupResp, respDeps] at hx
  | cons e t ih =>
    obtain ⟨n, resp⟩ := e
    simp only [lookupResp] at hx
    simp only [allDepNames, List.mem_append]
    by_cases h : n = k
    · rw [if_pos h] at hx
      exact Or.inl hx
    · rw [if_neg h] at hx
      exact Or.inr (ih hx)

theorem not_memStr_mono {seen : List String} (k : String) :
    ∀ a, (!(memStr (k :: seen) a)) = true → (!(memStr seen a)) = true := by
  intro a ha
  cases hv : memStr seen a with
  | false => simp
  | true => exact absurd (memStr_cons_of k hv) (by simpa using ha)

theorem unseenCount_cons_le (univ seen : List String) (k : String) :
    unseenCount univ (k :: seen) ≤ unseenCount univ seen :=
  (List.monotone_filter_right univ (not_memStr_mono k)).length_le

theorem unseenCount_cons_lt (univ seen : List String) (k : String)
    (hU : k ∈ univ) (hk : memStr seen k = false) :
    unseenCount univ (k :: seen) < unseenCount univ seen := by
  have hsub := List.monotone_filter_right univ (@not_memStr_mono seen k)
  have hle := hsub.length_le
  cases Nat.lt_or_eq_of_le hle with
  | inl h => exact h
  | inr h =>
    have heq := hsub.eq_of_length h
    have hkR : k ∈ univ.filter (fun n => !(memStr seen n)) :=
      List.mem_filter.mpr ⟨hU, by simp [hk]⟩
    rw [← heq, List.mem_filter] at hkR
    have hself : memStr (k :: seen) k = true := memStr_cons_self seen k
    simp [hself] at hkR

end Part000

namespace Part000

theorem bfs_visit_step (o : Registry) (fuel : Nat) (k : String)
    (rest seen : List String) (closure : List (String × String)) (queried : List String)
    (hseen : memStr seen k = false) (hne : lookupResp o k ≠ .err) :
    bfs o (fuel + 1) (k :: rest) seen closure queried
      = bfs o fuel
          (processDeps (k :: seen) (respDeps (lookupResp o k)) closure rest).2
          (k :: seen)
          (processDeps (k :: seen) (respDeps (lookupResp o k)) closure rest).1
          (queried ++ [k]) := by
  rcases hre : lookupResp o k with _ | _ | ds
  · exact absurd hre hne
  · simp [bfs, hseen, hre]
  · simp [bfs, hseen, hre]

theorem bfs_skip_step (o : Registry) (fuel : Nat) (k : String)
    (rest seen : List String) (closure : List (String × String)) (queried : List String)
    (hseen : memStr seen k = true) :
    bfs o (fuel + 1) (k :: rest) seen closure queried
      = bfs o fuel rest seen closure queried := by
  simp [bfs, hseen]

theorem bfs_ne_outOfFuel (o : Registry) (r : String) :
    ∀ (fuel : Nat) (queue seen : List String) (closure : List (String × String))
      (queried : List String),
      (∀ k ∈ queue, k ∈ keyUniverse o r) →
      queue.length
        + unseenCount (keyUniverse o r) seen * (1 + (allDepNames o).length) < fuel →
      bfs o fuel queue seen closure queried ≠ TravResult.outOfFuel := by
  intro fuel
  induction fuel with
  | zero =>
    intro queue seen closure queried _ hlt
    omega
  | succ fuel ih =>
    intro queue seen closure queried hq hlt
    match queue with
    | [] =>
      intro h
      exact TravResult.noConfusion h
    | k :: rest =>
      by_cases hseen : memStr seen k = true
      · rw [bfs_skip_step o fuel k rest seen closure queried hseen]
        apply ih
        · intro x hx
          exact hq x (List.mem_cons_of_mem _ hx)
        · simp only [List.length_cons] at hlt
          omega
      · have hseen' : memStr seen k = false := by
          cases hv : memStr seen k with
          | false => rfl
          | true => exact absurd hv hseen
        by_cases herr : lookupResp o k = .err
        · have hstep : bfs o (fuel + 1) (k :: rest) seen closure queried = .oracleErr k := by
            simp [bfs, hseen', herr]
          rw [hstep]
          intro h
          exact TravResult.noConfusion h
        · rw [bfs_visit_step o fuel k rest seen closure queried hseen' herr]
          apply ih
          · intro x hx
            rcases processDeps_queue_mem (k :: seen) _ closure rest x hx with h | h
            · exact hq x (List.mem_cons_of_mem _ h)
            · exact List.mem_cons_of_mem _ (respDeps_lookup_mem o k x h)
          · have hqlen := processDeps_queue_length (k :: seen)
              (respDeps (lookupResp o k)) closure rest
            have hdlen := respDeps_lookup_length o k
            have hkU : k ∈ keyUniverse o r := hq k (List.mem_cons_self k rest)
            have hu := unseenCount_cons_lt (keyUniverse o r) seen k hkU hseen'
            have hkey : unseenCount (keyUniverse o r) (k :: seen) * (1 + (allDepNames o).length)
                + (1 + (allDepNames o).length)
                ≤ unseenCount (keyUniverse o r) seen * (1 + (allDepNames o).length) := by
              have h1 : unseenCount (keyUniverse o r) (k :: seen) + 1
                  ≤ unseenCount (keyUniverse o r) seen := hu
              calc unseenCount (keyUniverse o r) (k :: seen) * (1 + (allDepNames o).length)
                    + (1 + (allDepNames o).length)
                  = (unseenCount (keyUniverse o r) (k :: seen) + 1)
                    * (1 + (allDepNames o).length) := by ring
                _ ≤ unseenCount (keyUniverse o r) seen * (1 + (allDepNames o).length) :=
                    Nat.mul_le_mul_right _ h1
            simp only [List.length_cons] at hlt
            generalize hA : unseenCount (keyUniverse o r) (k :: seen)
              * (1 + (allDepNames o).length) = A at hkey ⊢
            generalize hB : unseenCount (keyUniverse o r) seen
              * (1 + (allDepNames o).length) = B at hkey hlt
            omega

theorem getAllDependencies_not_outOfFuel (o : Registry)
    (packageName packageVersion : String) :
    getAllDependencies o packageName packageVersion ≠ TravResult.outOfFuel := by
  apply bfs_ne_outOfFuel o (rootKey packageName packageVersion)
  · intro k hk
    rw [List.mem_singleton] at hk
    subst hk
    exact List.mem_cons_self _ _
  · have hcount : unseenCount (keyUniverse o (rootKey packageName packageVersion)) []
        ≤ 1 + (allDepNames o).length := by
      have := List.length_filter_le
        (fun n => !(memStr [] n)) (keyUniverse o (rootKey packageName packageVersion))
      simp only [unseenCount, keyUniverse, List.length_cons] at this ⊢
      omega
    have hmul : unseenCount (keyUniverse o (rootKey packageName packageVersion)) []
          * (1 + (allDepNames o).length)
        ≤ (1 + (allDepNames o).length) * (1 + (allDepNames o).length) :=
      Nat.mul_le_mul_right _ hcount
    simp only [List.length_singleton, initialFuel]
    generalize hA : unseenCount (keyUniverse o (rootKey packageName packageVersion)) []
      * (1 + (allDepNames o).length) = A at hmul ⊢
    generalize hB : (1 + (allDepNames o).length) * (1 + (allDepNames o).length) = B at hmul ⊢
    omega

end Part000

namespace Part000

theorem bfs_queried_invariant (o : Registry) (r : String) :
    ∀ (fuel : Nat) (queue seen : List String) (closure : List (String × String))
      (queried : List String),
      queried.Nodup →
      (∀ q ∈ queried, memStr seen q = true) →
      (∀ q ∈ queried, q ∈ keyUniverse o r) →
      (∀ k ∈ queue, k ∈ keyUniverse o r) →
      (queriedOf (bfs o fuel queue seen closure queried)).Nodup ∧
      ∀ x ∈ queriedOf (bfs o fuel queue seen closure queried), x ∈ keyUniverse o r := by
  intro fuel
  induction fuel with
  | zero =>
    intro queue seen closure queried _ _ _ _
    constructor
    · simp [bfs, queriedOf]
    · intro x hx
      simp [bfs, queriedOf] at hx
  | succ fuel ih =>
    intro queue seen closure queried hnd hqs hqU hkU
    match queue with
    | [] =>
      constructor
      · simpa [bfs, queriedOf] using hnd
      · intro x hx
        simp only [bfs, queriedOf] at hx
        exact hqU x hx
    | k :: rest =>
      by_cases hseen : memStr seen k = true
      · rw [bfs_skip_step o fuel k rest seen closure queried hseen]
        exact ih rest seen closure queried hnd hqs hqU
          (fun x hx => hkU x (List.mem_cons_of_mem _ hx))
      · have hseen' : memStr seen k = false := by
          cases hv : memStr seen k with
          | false => rfl
          | true => exact absurd hv hseen
        by_cases herr : lookupResp o k = .err
        · have hstep : bfs o (fuel + 1) (k :: rest) seen closure queried = .oracleErr k := by
            simp [bfs, hseen', herr]
          rw [hstep]
          constructor
          · simp [queriedOf]
          · intro x hx
            simp [queriedOf] at hx
        · rw [bfs_visit_step o fuel k rest seen closure queried hseen' herr]
          apply ih
          · apply List.Nodup.append hnd (List.nodup_singleton k)
            intro a ha hb
            rw [List.mem_singleton] at hb
            subst hb
            rw [hqs a ha] at hseen'
            exact Bool.noConfusion hseen'
          · intro q hq
            rcases List.mem_append.mp hq with h | h
            · exact memStr_cons_of k (hqs q h)
            · rw [List.mem_singleton] at h
              subst h
              exact memStr_cons_self seen q
          · intro q hq
            rcases List.mem_append.mp hq with h | h
            · exact hqU q h
            · rw [List.mem_singleton] at h
              subst h
              exact hkU q (List.mem_cons_self _ _)
          · intro x hx
            rcases processDeps_queue_mem (k :: seen) _ closure rest x hx with h | h
            · exact hkU x (List.mem_cons_of_mem _ h)
            · exact List.mem_cons_of_mem _ (respDeps_lookup_mem o k x h)

theorem getAllDependencies_queried_props (o : Registry)
    (packageName packageVersion : String) :
    (queriedOf (getAllDependencies o packageName packageVersion)).Nodup ∧
    ∀ x ∈ queriedOf (getAllDependencies o packageName packageVersion),
      x ∈ keyUniverse o (rootKey packageName packageVersion) := by
  apply bfs_queried_invariant
  · exact List.nodup_nil
  · intro q hq
    simp at hq
  · intro q hq
    simp at hq
  · intro k hk
    rw [List.mem_singleton] at hk
    subst hk
    exact List.mem_cons_self _ _

theorem getAllDependencies_queried_length (o : Registry)
    (packageName packageVersion : String) :
    (queriedOf (getAllDependencies o packageName packageVersion)).length
      ≤ 1 + (allDepNames o).toFinset.card := by
  obtain ⟨hnd, hsub⟩ := getAllDependencies_queried_props o packageName packageVersion
  have h1 := List.toFinset_card_of_nodup hnd
  have h2 : (queriedOf (getAllDependencies o packageName packageVersion)).toFinset
      ⊆ insert (rootKey packageName packageVersion) (allDepNames o).toFinset := by
    intro x hx
    rw [List.mem_toFinset] at hx
    have hx2 := hsub x hx
    simp only [keyUniverse, List.mem_cons] at hx2
    rcases hx2 with h | h
    · subst h
      exact Finset.mem_insert_self _ _
    · exact Finset.mem_insert_of_mem (List.mem_toFinset.mpr h)
  have h3 := Finset.card_le_card h2
  have h4 := Finset.card_insert_le (rootKey packageName packageVersion)
    (allDepNames o).toFinset
  omega

end Part000

namespace Part000

theorem isVersionInRange_of_parseVersion_none {version : String} (versionRange : String)
    (h : Semver.parseVersion version = none) :
    isVersionInRange version versionRange = false := by
  cases hr : Semver.parseRange versionRange <;> simp [isVersionInRange, hr, h]

theorem isVersionInRange_of_parseRange_none {versionRange : String} (version : String)
    (h : Semver.parseRange versionRange = none) :
    isVersionInRange version versionRange = false := by
  simp [isVersionInRange, h]

theorem parseVersion_isSome_of_isVersionInRange {version versionRange : String}
    (h : isVersionInRange version versionRange = true) :
    (Semver.parseVersion version).isSome = true := by
  cases hv : Semver.parseVersion version with
  | none => rw [isVersionInRange_of_parseVersion_none versionRange hv] at h; exact Bool.noConfusion h
  | some v => rfl

theorem pickLatest_of_not_inRange {version versionRange : String} (latest : String)
    (h : isVersionInRange version versionRange = false) :
    pickLatest versionRange latest version = latest := by
  simp [pickLatest, h]

theorem foldl_pickLatest_filter_parseable (versionRange : String) :
    ∀ (versions : List String) (init : String),
      (versions.filter (fun v => (Semver.parseVersion v).isSome)).foldl
          (pickLatest versionRange) init
        = versions.foldl (pickLatest versionRange) init := by
  intro versions
  induction versions with
  | nil => intro init; rfl
  | cons v t ih =>
    intro init
    by_cases hp : (Semver.parseVersion v).isSome = true
    · have hstep : (v :: t).filter (fun v => (Semver.parseVersion v).isSome)
          = v :: t.filter (fun v => (Semver.parseVersion v).isSome) := by
        simp [List.filter_cons, hp]
      rw [hstep]
      simp only [List.foldl_cons]
      exact ih (pickLatest versionRange init v)
    · have hnone : Semver.parseVersion v = none := by
        cases hv : Semver.parseVersion v with
        | none => rfl
        | some w => rw [hv] at hp; exact absurd rfl hp
      have hstep : (v :: t).filter (fun v => (Semver.parseVersion v).isSome)
          = t.filter (fun v => (Semver.parseVersion v).isSome) := by
        simp [List.filter_cons, hnone]
      rw [hstep]
      simp only [List.foldl_cons]
      rw [pickLatest_of_not_inRange init (isVersionInRange_of_parseVersion_none versionRange hnone)]
      exact ih init

theorem foldl_pickLatest_mem_or_init (versionRange : String) :
    ∀ (versions : List String) (init : String),
      versions.foldl (pickLatest versionRange) init = init ∨
        (versions.foldl (pickLatest versionRange) init ∈ versions ∧
          isVersionInRange (versions.foldl (pickLatest versionRange) init) versionRange
            = true) := by
  intro versions
  induction versions with
  | nil => intro init; exact Or.inl rfl
  | cons v t ih =>
    intro init
    simp only [List.foldl_cons]
    rcases ih (pickLatest versionRange init v) with h | ⟨hm, hr⟩
    · rw [h]
      by_cases hir : isVersionInRange v versionRange = true
      · simp only [pickLatest, hir, if_true]
        by_cases hc : init = "" ∨ compareVersions v init > 0
        · rw [if_pos hc]
          exact Or.inr ⟨List.mem_cons_self v t, hir⟩
        · rw [if_neg hc]
          exact Or.inl rfl
      · rw [pickLatest_of_not_inRange init (by simpa using hir)]
        exact Or.inl rfl
    · exact Or.inr ⟨List.mem_cons_of_mem v hm, hr⟩

theorem foldl_pickLatest_all_out (versionRange : String) :
    ∀ (versions : List String) (init : String),
      (∀ v ∈ versions, isVersionInRange v versionRange = false) →
      versions.foldl (pickLatest versionRange) init = init := by
  intro versions
  induction versions with
  | nil => intro init _; rfl
  | cons v t ih =>
    intro init hall
    simp only [List.foldl_cons]
    rw [pickLatest_of_not_inRange init (hall v (List.mem_cons_self v t))]
    exact ih init fun x hx => hall x (List.mem_cons_of_mem v hx)

theorem lookupEntry_setEntry_self :
    ∀ (m : List (String × String)) (k v : String),
      lookupEntry (setEntry m k v) k = some v := by
  intro m
  induction m with
  | nil =>
    intro k v
    simp [setEntry, lookupEntry]
  | cons p t ih =>
    intro k v
    obtain ⟨a, b⟩ := p
    by_cases h : a = k
    · simp [setEntry, lookupEntry, h]
    · simp only [setEntry, if_neg h, lookupEntry]
      exact ih k v

end Part000

/-- Completeness of a successful snapshot build: a map returned by
`saveLatestVersionsToFile` has an entry for every dependency it was given
(helper for the no-silent-drop part of the no-match claim). -/
theorem saveLatest_ok_complete (fetch : String → Option (List String)) :
    ∀ (deps m : List (String × String)),
      Part000.saveLatestVersionsToFile fetch deps = .ok m →
      ∀ p ∈ deps, ∃ w, lookupEntry m p.1 = some w := by
  intro deps
  induction deps with
  | nil =>
    intro m _ p hp
    simp at hp
  | cons q t ih =>
    intro m h p hp
    obtain ⟨d1, r1⟩ := q
    cases hg : Part000.getLatestVersionForRange fetch d1 r1 with
    | error e =>
      simp only [Part000.saveLatestVersionsToFile, hg] at h
      exact Except.noConfusion h
    | ok w =>
      cases hs : Part000.saveLatestVersionsToFile fetch t with
      | error e =>
        simp only [Part000.saveLatestVersionsToFile, hg, hs] at h
        exact Except.noConfusion h
      | ok m2 =>
        simp only [Part000.saveLatestVersionsToFile, hg, hs, Except.ok.injEq] at h
        subst h
        rcases List.mem_cons.mp hp with hph | hpt
        · subst hph
          exact ⟨w, by simp [lookupEntry]⟩
        · obtain ⟨w2, hw2⟩ := ih m2 hs p hpt
          by_cases hd : d1 = p.1
          · exact ⟨w, by simp [lookupEntry, hd]⟩
          · exact ⟨w2, by simpa [lookupEntry, hd] using hw2⟩

/-- Prepending successfully resolving entries preserves a failing build
(helper for the fail-fast claim). -/
theorem saveLatest_append_error (fetch : String → Option (List String)) :
    ∀ (pre : List (String × String)),
      (∀ p ∈ pre, ∃ w, Part000.getLatestVersionForRange fetch p.1 p.2 = .ok w) →
      ∀ (rest : List (String × String)) (err : SaveErr),
        Part000.saveLatestVersionsToFile fetch rest = .error err →
        Part000.saveLatestVersionsToFile fetch (pre ++ rest) = .error err := by
  intro pre
  induction pre with
  | nil =>
    intro _ rest err h
    simpa using h
  | cons p t ih =>
    intro hpre rest err h
    obtain ⟨d1, r1⟩ := p
    obtain ⟨w, hw⟩ := hpre (d1, r1) (List.mem_cons_self _ _)
    have ht := ih (fun q hq => hpre q (List.mem_cons_of_mem _ hq)) rest err h
    simp only [List.cons_append, Part000.saveLatestVersionsToFile, hw]
    have ht2 : Part000.saveLatestVersionsToFile fetch (t.append rest) = Except.error err := ht
    rw [ht2]

/-- C1: among published versions satisfying a range, the `part_000`
variant picks the maximum under semantic-version ordering and returns
`10.0.0` for `["9.0.0","10.0.0"]` with `>=0.0.0`; the
`get_dependencies/main.go` variant compares with `strings.Compare` and
returns `9.0.0` on the same input, violating the claim. -/
theorem resolve_numeric_vs_lexicographic :
    Part000.getLatestVersionForRangeFrom ["9.0.0", "10.0.0"] "left-pad" ">=0.0.0"
      = .ok "10.0.0" ∧
    GetDeps.getLatestVersionForRangeFrom ["9.0.0", "10.0.0"] "left-pad" ">=0.0.0"
      = .ok "9.0.0" :=
  ⟨rfl, rfl⟩

/-- C2: the semver-based membership test of `part_000` follows
semantic-version constraint semantics (including pre-release exclusion
and opt-in), while the substring-based test of `part_002` disagrees with
it in both directions. -/
theorem range_membership_semantics :
    Part002.isVersionInRange "1.5.0" "^1.0.0" = false ∧
    Part000.isVersionInRange "1.5.0" "^1.0.0" = true ∧
    Part002.isVersionInRange "2.0.0" ">=1.0.0 <2.0.0" = true ∧
    Part000.isVersionInRange "2.0.0" ">=1.0.0 <2.0.0" = false ∧
    Part000.isVersionInRange "1.5.0-rc.1" ">=1.0.0" = false ∧
    Part000.isVersionInRange "1.5.0-rc.1" ">=1.0.0-alpha" = true := by
  refine ⟨by decide, by decide, by decide, by decide, by decide, by decide⟩

/-- C3 counterexample: a root `A@1.0.0` that declares its own name `A` as
a dependency is queried twice for package name `A` (once under the
`A@1.0.0` root key, once under the bare key `A`): the self-reference is
not absorbed by the visited check. -/
theorem self_reference_not_absorbed :
    (Part000.queriedOf
        (Part000.getAllDependencies
          [("A@1.0.0", .deps [("A", "^1.0.0")]), ("A", .empty)] "A" "1.0.0")).countP
      (fun k => Part000.keyName k == "A") = 2 := by
  decide

/-- C3 amended: each queue key is queried for its dependencies at most
once per traversal (the queried-key list never repeats a key); the
visited check operates on keys, and the root key carries a `@version`
suffix that dependency keys lack, so the at-most-once guarantee holds per
key, not per package name. -/
theorem queue_key_queried_at_most_once (o : Registry)
    (packageName packageVersion : String) :
    (Part000.queriedOf (Part000.getAllDependencies o packageName packageVersion)).Nodup :=
  (Part000.getAllDependencies_queried_props o packageName packageVersion).1

/-- C4 counterexample: for the syntactically invalid range `not-a-range`
the resolver does not fail with a parse error: it returns exactly the
same `no version found` error as an unsatisfied valid range. -/
theorem invalid_range_reported_as_noMatch :
    Semver.parseRange "not-a-range" = none ∧
    Part000.getLatestVersionForRangeFrom ["1.0.0"] "left-pad" "not-a-range"
      = .error (.noMatch "left-pad" "not-a-range") :=
  ⟨rfl, rfl⟩

/-- C4 amended: the code has no range-parse error at all; for every range
that fails constraint parsing, `isVersionInRange` returns `false` for
every version, so resolve fails with the same `no version found` error
(`noMatch`) as a valid but unsatisfied range. -/
theorem parse_failure_becomes_noMatch (versions : List String)
    (packageName versionRange : String)
    (h : Semver.parseRange versionRange = none) :
    Part000.getLatestVersionForRangeFrom versions packageName versionRange
      = .error (.noMatch packageName versionRange) := by
  have hall : ∀ v ∈ versions, Part000.isVersionInRange v versionRange = false :=
    fun v _ => Part000.isVersionInRange_of_parseRange_none v h
  have hfold := Part000.foldl_pickLatest_all_out versionRange versions "" hall
  simp [Part000.getLatestVersionForRangeFrom, hfold]

theorem parse_failure_becomes_noMatch_witness :
    Semver.parseRange "totally bogus" = none ∧
    Part000.getLatestVersionForRangeFrom ["1.0.0"] "left-pad" "totally bogus"
      = .error (.noMatch "left-pad" "totally bogus") :=
  ⟨rfl, parse_failure_becomes_noMatch ["1.0.0"] "left-pad" "totally bogus" rfl⟩

/-- C5: if one entry of the closure fails to resolve while every other
entry resolves successfully, the whole build fails with exactly that
entry's wrapped error and no snapshot map is produced. -/
theorem build_fail_fast (fetch : String → Option (List String))
    (pre post : List (String × String)) (dep rg : String) (e : ResolveErr)
    (hpre : ∀ p ∈ pre, ∃ w, Part000.getLatestVersionForRange fetch p.1 p.2 = .ok w)
    (hfail : Part000.getLatestVersionForRange fetch dep rg = .error e)
    (hpost : ∀ p ∈ post, ∃ w, Part000.getLatestVersionForRange fetch p.1 p.2 = .ok w) :
    Part000.saveLatestVersionsToFile fetch (pre ++ (dep, rg) :: post)
      = .error (.fetchFailed dep e) := by
  have hrest : Part000.saveLatestVersionsToFile fetch ((dep, rg) :: post)
      = .error (.fetchFailed dep e) := by
    simp only [Part000.saveLatestVersionsToFile, hfail]
  exact saveLatest_append_error fetch pre hpre ((dep, rg) :: post) _ hrest

theorem build_fail_fast_witness :
    Part000.saveLatestVersionsToFile
        (fun n =>
          if n = "ok1" then some ["1.0.0", "1.5.0"]
          else if n = "bad" then some ["0.1.0"]
          else if n = "ok2" then some ["2.0.0"] else none)
        ([("ok1", "^1.0.0")] ++ ("bad", "^9.0.0") :: [("ok2", "^2.0.0")])
      = .error (.fetchFailed "bad" (.noMatch "bad" "^9.0.0")) :=
  build_fail_fast _ [("ok1", "^1.0.0")] [("ok2", "^2.0.0")] "bad" "^9.0.0"
    (.noMatch "bad" "^9.0.0")
    (by
      intro p hp
      rw [List.mem_singleton] at hp
      subst hp
      exact ⟨"1.5.0", rfl⟩)
    rfl
    (by
      intro p hp
      rw [List.mem_singleton] at hp
      subst hp
      exact ⟨"2.0.0", rfl⟩)

/-- C6 counterexample: with a self-referential root the traversal makes
two oracle queries although only one distinct package name (`A`) is
reachable from the root, exceeding the claimed bound. -/
theorem query_count_exceeds_reachable_names :
    (Part000.queriedOf
        (Part000.getAllDependencies
          [("A@1.0.0", .deps [("A", "^1.0.0")]), ("A", .empty)] "A" "1.0.0")).length = 2 ∧
    ((Part000.queriedOf
        (Part000.getAllDependencies
          [("A@1.0.0", .deps [("A", "^1.0.0")]), ("A", .empty)] "A" "1.0.0")).map
      Part000.keyName).dedup = ["A"] := by
  refine ⟨by decide, by decide⟩

/-- C6 amended: for every finite registry the traversal terminates (its
fuel bound is never exhausted), never queries the same queue key twice,
and makes at most one query (the root's `name@version` key) plus one per
distinct package name occurring as a dependency in the registry; the
bound by distinct reachable package names alone fails because the root
key can add one extra query for an already reachable name. -/
theorem traversal_terminates_with_bounded_queries (o : Registry)
    (packageName packageVersion : String) :
    Part000.getAllDependencies o packageName packageVersion
        ≠ Part000.TravResult.outOfFuel ∧
    (Part000.queriedOf (Part000.getAllDependencies o packageName packageVersion)).Nodup ∧
    (Part000.queriedOf (Part000.getAllDependencies o packageName packageVersion)).length
      ≤ 1 + (Part000.allDepNames o).toFinset.card :=
  ⟨Part000.getAllDependencies_not_outOfFuel o packageName packageVersion,
   (Part000.getAllDependencies_queried_props o packageName packageVersion).1,
   Part000.getAllDependencies_queried_length o packageName packageVersion⟩

/-- C7: in the scenario of the claim (dependency `libx` declared with
`^1.0.0` by the parent processed first in FIFO order and with `^2.0.0`
by the parent processed later) the closure's entry for `libx` is
`^2.0.0`; and at the map level a write always overwrites the previous
binding of its key unconditionally. -/
theorem closure_last_write_wins :
    lookupEntry
        (Part000.closureOf
          (Part000.getAllDependencies
            [("app@1.0.0", .deps [("liba", "^1.0.0"), ("libb", "^1.0.0")]),
             ("liba", .deps [("libx", "^1.0.0")]),
             ("libb", .deps [("libx", "^2.0.0")]),
             ("libx", .empty)] "app" "1.0.0"))
        "libx" = some "^2.0.0" ∧
    ∀ (m : List (String × String)) (k v : String),
      lookupEntry (setEntry m k v) k = some v :=
  ⟨rfl, Part000.lookupEntry_setEntry_self⟩

/-- C8: for a syntactically valid range that no published version
satisfies, resolve fails with the `no version found` error naming both
the package and the range; and every successfully built snapshot map has
an entry for every dependency it was given, so such a key is never
silently dropped. -/
theorem unsatisfied_range_fails_with_noMatch (versions : List String)
    (packageName versionRange : String)
    (hvalid : (Semver.parseRange versionRange).isSome = true)
    (hnone : ∀ v ∈ versions, Part000.isVersionInRange v versionRange = false) :
    Part000.getLatestVersionForRangeFrom versions packageName versionRange
      = .error (.noMatch packageName versionRange) ∧
    ∀ (fetch : String → Option (List String)) (deps m : List (String × String)),
      Part000.saveLatestVersionsToFile fetch deps = .ok m →
      ∀ p ∈ deps, ∃ w, lookupEntry m p.1 = some w := by
  constructor
  · have hfold := Part000.foldl_pickLatest_all_out versionRange versions "" hnone
    simp [Part000.getLatestVersionForRangeFrom, hfold]
  · exact fun fetch => saveLatest_ok_complete fetch

theorem unsatisfied_range_fails_with_noMatch_witness :
    (Semver.parseRange "^2.0.0").isSome = true ∧
    (∀ v ∈ ["1.0.0"], Part000.isVersionInRange v "^2.0.0" = false) ∧
    (Part000.getLatestVersionForRangeFrom ["1.0.0"] "left-pad" "^2.0.0"
        = .error (.noMatch "left-pad" "^2.0.0") ∧
      ∀ (fetch : String → Option (List String)) (deps m : List (String × String)),
        Part000.saveLatestVersionsToFile fetch deps = .ok m →
        ∀ p ∈ deps, ∃ w, lookupEntry m p.1 = some w) :=
  ⟨by decide, by decide,
   unsatisfied_range_fails_with_noMatch ["1.0.0"] "left-pad" "^2.0.0"
     (by decide) (by decide)⟩

/-- C9: when the oracle reports an empty or `no dependencies` response
for an unvisited key, the traversal continues rather than failing, adds
no entry to the closure map and no item to the work queue, and only
records the key as visited. -/
theorem empty_response_adds_nothing (o : Registry) (fuel : Nat) (k : String)
    (rest seen : List String) (closure : List (String × String)) (queried : List String)
    (hk : memStr seen k = false) (he : lookupResp o k = .empty) :
    Part000.bfs o (fuel + 1) (k :: rest) seen closure queried
      = Part000.bfs o fuel rest (k :: seen) closure (queried ++ [k]) := by
  have hne : lookupResp o k ≠ .err := by
    rw [he]
    intro hcontra
    exact OracleResp.noConfusion hcontra
  rw [Part000.bfs_visit_step o fuel k rest seen closure queried hk hne, he]
  rfl

theorem empty_response_adds_nothing_witness :
    memStr [] "lonely" = false ∧
    lookupResp [("lonely", OracleResp.empty)] "lonely" = OracleResp.empty ∧
    Part000.bfs [("lonely", OracleResp.empty)] 3 ["lonely"] [] [] []
      = Part000.bfs [("lonely", OracleResp.empty)] 2 [] ["lonely"] [] ([] ++ ["lonely"]) :=
  ⟨rfl, rfl,
   empty_response_adds_nothing [("lonely", OracleResp.empty)] 2 "lonely" [] [] [] [] rfl rfl⟩

/-- C10: a published version string that is not a valid semantic version
is silently skipped: removing all unparsable strings from the published
list leaves the result of resolve unchanged, and a version returned by
resolve always parses. -/
theorem unparsable_versions_silently_skipped (versions : List String)
    (packageName versionRange : String) :
    Part000.getLatestVersionForRangeFrom
        (versions.filter (fun v => (Semver.parseVersion v).isSome))
        packageName versionRange
      = Part000.getLatestVersionForRangeFrom versions packageName versionRange ∧
    ∀ w, Part000.getLatestVersionForRangeFrom versions packageName versionRange = .ok w →
      (Semver.parseVersion w).isSome = true := by
  constructor
  · simp only [Part000.getLatestVersionForRangeFrom]
    rw [Part000.foldl_pickLatest_filter_parseable versionRange versions ""]
  · intro w hw
    rcases Part000.foldl_pickLatest_mem_or_init versionRange versions "" with h | ⟨_, hr⟩
    · simp [Part000.getLatestVersionForRangeFrom, h] at hw
    · have hfold : versions.foldl (Part000.pickLatest versionRange) "" = w := by
        by_cases hz : versions.foldl (Part000.pickLatest versionRange) "" = ""
        · simp [Part000.getLatestVersionForRangeFrom, hz] at hw
        · simp only [Part000.getLatestVersionForRangeFrom] at hw
          rw [if_neg hz] at hw
          exact Except.ok.inj hw
      rw [hfold] at hr
      exact Part000.parseVersion_isSome_of_isVersionInRange hr

theorem unparsable_versions_silently_skipped_witness :
    Part000.getLatestVersionForRangeFrom
        (["garbage", "1.0.0"].filter (fun v => (Semver.parseVersion v).isSome))
        "left-pad" ">=0.5.0"
      = Part000.getLatestVersionForRangeFrom ["garbage", "1.0.0"] "left-pad" ">=0.5.0" ∧
    (Semver.parseVersion "1.0.0").isSome = true :=
  ⟨(unparsable_versions_silently_skipped ["garbage", "1.0.0"] "left-pad" ">=0.5.0").1,
   (unparsable_versions_silently_skipped ["garbage", "1.0.0"] "left-pad" ">=0.5.0").2
     "1.0.0" rfl⟩

theorem queue_key_queried_at_most_once_witness :
    (Part000.queriedOf
      (Part000.getAllDependencies
        [("A@1.0.0", OracleResp.deps [("A", "^1.0.0")]), ("A", OracleResp.empty)]
        "A" "1.0.0")).Nodup :=
  queue_key_queried_at_most_once
    [("A@1.0.0", OracleResp.deps [("A", "^1.0.0")]), ("A", OracleResp.empty)] "A" "1.0.0"

theorem traversal_terminates_with_bounded_queries_witness :
    Part000.getAllDependencies
        [("A@1.0.0", OracleResp.deps [("A", "^1.0.0")]), ("A", OracleResp.empty)]
        "A" "1.0.0"
      ≠ Part000.TravResult.outOfFuel ∧
    (Part000.queriedOf
      (Part000.getAllDependencies
        [("A@1.0.0", OracleResp.deps [("A", "^1.0.0")]), ("A", OracleResp.empty)]
        "A" "1.0.0")).Nodup ∧
    (Part000.queriedOf
      (Part000.getAllDependencies
        [("A@1.0.0", OracleResp.deps [("A", "^1.0.0")]), ("A", OracleResp.empty)]
        "A" "1.0.0")).length
      ≤ 1 + (Part000.allDepNames
          [("A@1.0.0", OracleResp.deps [("A", "^1.0.0")]), ("A", OracleResp.empty)]).toFinset.card :=
  traversal_terminates_with_bounded_queries
    [("A@1.0.0", OracleResp.deps [("A", "^1.0.0")]), ("A", OracleResp.empty)] "A" "1.0.0"
